import Mathlib

/-
Verification of the pygoo ObjectNode core (src/pygoo/objectnode.py).

The node operations of objectnode.py are translated directly. The helper
modules that objectnode.py imports (abstractnode, utils, ontology, the
graph store) are not part of the sources; every definition standing in for
one of them carries a doc comment starting with "Modelled from the spec:".

Conventions of the shallow embedding:
  nodes are identified by natural numbers; a graph value carries the whole
  observable state: the literal attribute store, the global edge index
  (each logical link is a pair of directed half edges, forward and mirror),
  the per node classification cache, the schema registry, the dynamic mode
  flag, the node backreference slots and a counter of classification
  passes used to observe when reclassification runs.
-/

namespace Pygoo

/-- Literal scalar values stored inline on a node. -/
inductive Lit where
  | str (s : String)
  | int (z : Int)
  | bool (b : Bool)
deriving DecidableEq, Repr

/-- Runtime kind of a literal, playing the role of the python type object. -/
inductive LitKind where
  | str
  | int
  | bool
deriving DecidableEq, Repr

/-- Runtime kind of a stored literal value. -/
def litKind : Lit → LitKind
  | .str _ => .str
  | .int _ => .int
  | .bool _ => .bool

/-- Declared attribute type in a schema: a literal kind or a node class name. -/
inductive PType where
  | lit (k : LitKind)
  | node (cn : String)
deriving DecidableEq, Repr

/-- Modelled from the spec: a Schema Descriptor of the external registry.
Field ancestors lists the names of the proper superclasses, schema maps
attribute names to expected types and valid lists the required attributes. -/
structure PClass where
  cname : String
  ancestors : List String
  schema : List (String × PType)
  valid : List String
deriving DecidableEq, Repr

/-- Modelled from the spec: the universal base class of the hierarchy. -/
def baseObject : PClass := { cname := "BaseObject", ancestors := [], schema := [], valid := [] }

/-- Runtime python value handed to set or append: a literal, a node
reference, a sequence of node references, or anything else with its kind. -/
inductive PyVal where
  | lit (l : Lit)
  | node (n : Nat)
  | nodes (ns : List Nat)
  | other (kind : String)
deriving DecidableEq, Repr

/-- Result of a property read: a literal or an edge set materialization. -/
inductive Value where
  | lit (l : Lit)
  | nodes (ns : List Nat)
deriving DecidableEq, Repr

/-- A directed half edge of the global edge index. -/
structure Edge where
  src : Nat
  nm : String
  tgt : Nat
deriving DecidableEq, Repr

/-- Whole observable state: graph store plus every node. -/
structure Graph where
  dynamic : Bool
  registry : List PClass
  literals : List ((Nat × String) × Lit)
  edges : List Edge
  classCache : List (Nat × List PClass)
  backrefs : List (Nat × PyVal)
  passes : Nat
deriving DecidableEq, Repr

/-- First binding of a key in an association list. -/
def lookupA {α β : Type} [DecidableEq α] : List (α × β) → α → Option β
  | [], _ => none
  | (k, v) :: t, a => if k = a then some v else lookupA t a

/-- Replace the binding of a key, or append a fresh one. -/
def setA {α β : Type} [DecidableEq α] : List (α × β) → α → β → List (α × β)
  | [], a, b => [(a, b)]
  | (k, v) :: t, a, b => if k = a then (a, b) :: t else (k, v) :: setA t a b

/-- Drop every binding of a key, as deleting a dict key does. -/
def eraseA {α β : Type} [DecidableEq α] : List (α × β) → α → List (α × β)
  | [], _ => []
  | (k, v) :: t, a => if k = a then eraseA t a else (k, v) :: eraseA t a

/-- Number of occurrences of an element in a list. -/
def cnt {α : Type} [DecidableEq α] (a : α) : List α → Nat
  | [] => 0
  | b :: t => (if b = a then 1 else 0) + cnt a t

/-- Remove the first occurrence of an element, a no-op when absent. -/
def eraseOne {α : Type} [DecidableEq α] (a : α) : List α → List α
  | [] => []
  | b :: t => if b = a then t else b :: eraseOne a t

/-- Modelled from the spec: the classification cache of a node, an
insertion ordered list of the Schema Descriptors it currently satisfies. -/
def cacheOf (g : Graph) (n : Nat) : List PClass :=
  (lookupA g.classCache n).getD []

/-- Overwrite the classification cache of one node. -/
def setCacheG (g : Graph) (n : Nat) (l : List PClass) : Graph :=
  { g with classCache := setA g.classCache n l }

/-- Modelled from the spec: clearClasses of the abstract node, emptying the cache. -/
def clearClasses (g : Graph) (n : Nat) : Graph :=
  setCacheG g n []

/-- Modelled from the spec: addClass of the abstract node, appending in insertion order. -/
def addClass (g : Graph) (n : Nat) (c : PClass) : Graph :=
  setCacheG g n (cacheOf g n ++ [c])

/-- Targets of the half edges leaving a node under one attribute name, in index order. -/
def targets (es : List Edge) (n : Nat) (name : String) : List Nat :=
  es.filterMap (fun e => if e.src = n ∧ e.nm = name then some e.tgt else none)

/-- Literal slot of a node under one attribute name. -/
def litLookup (g : Graph) (n : Nat) (name : String) : Option Lit :=
  lookupA g.literals (n, name)

/-- Modelled from the spec: getLiteral of the abstract node; raises
(error) when the node has no literal under that name. -/
def getLiteral (g : Graph) (n : Nat) (name : String) : Except String Lit :=
  match litLookup g n name with
  | some l => .ok l
  | none => .error "AttributeError"

/-- Modelled from the spec: outgoingEdgeEndpoints of the abstract node; an
iterable over the pointed nodes, raising when the name is not an edge key. -/
def outgoingEdgeEndpoints (g : Graph) (n : Nat) (name : String) : Except String (List Nat) :=
  match targets g.edges n name with
  | [] => .error "AttributeError"
  | ts => .ok ts

/-- ObjectNode.__getattr__: literal first, then edge endpoints, else AttributeError. -/
def getattrN (g : Graph) (n : Nat) (name : String) : Except String Value :=
  match getLiteral g n name with
  | .ok l => .ok (.lit l)
  | .error _ =>
    match outgoingEdgeEndpoints g n name with
    | .ok ts => .ok (.nodes ts)
    | .error _ => .error "AttributeError"

/-- ObjectNode.get: the property value, or none when the attribute is absent. -/
def get (g : Graph) (n : Nat) (name : String) : Option Value :=
  (getattrN g n name).toOption

/-- Declared type of one attribute in a schema. -/
def schemaGet (cls : PClass) (p : String) : Option PType :=
  lookupA cls.schema p

/-- Modelled from the spec: isinstance of a node against a declared type,
a membership test of the expected class in the classification cache of the
node; a literal kind is never an instance match for a node. -/
def nodeIsinstance (g : Graph) (m : Nat) (t : PType) : Bool :=
  match t with
  | .node cn => (cacheOf g m).any (fun c => c.cname == cn)
  | .lit _ => false

/-- Exact runtime kind comparison of a literal branch value against the
declared type, as in the python expression type(value) != cls.schema[prop];
an absent value never matches. -/
def typeMatches : Option Value → PType → Bool
  | some (.lit l), .lit k => litKind l == k
  | _, _ => false

/-- ObjectNode.hasValidProperties: every listed attribute must pass. A
link valued attribute is checked through the first referenced node only;
a literal must match the declared type exactly; a schema lookup of a
missing attribute raises (none). -/
def hasValidProperties (g : Graph) (n : Nat) (cls : PClass) : List String → Option Bool
  | [] => some true
  | p :: ps =>
    match get g n p with
    | some (.nodes []) => hasValidProperties g n cls ps
    | some (.nodes (m :: _)) =>
      match schemaGet cls p with
      | none => none
      | some t =>
        if nodeIsinstance g m t then hasValidProperties g n cls ps else some false
    | some (.lit l) =>
      match schemaGet cls p with
      | none => none
      | some t =>
        if typeMatches (some (.lit l)) t then hasValidProperties g n cls ps else some false
    | none =>
      match schemaGet cls p with
      | none => none
      | some t =>
        if typeMatches none t then hasValidProperties g n cls ps else some false

/-- ObjectNode.isValidInstance: the node satisfies every required attribute. -/
def isValidInstance (g : Graph) (n : Nat) (cls : PClass) : Option Bool :=
  hasValidProperties g n cls cls.valid

/-- Loop body of updateValidClasses: test each registry class against the
evolving state, keeping the passing ones in registry order. -/
def classifyLoop (n : Nat) : Graph → List PClass → Option Graph
  | g, [] => some g
  | g, c :: cs =>
    match isValidInstance g n c with
    | none => none
    | some true => classifyLoop n (addClass g n c) cs
    | some false => classifyLoop n g cs

/-- ObjectNode.updateValidClasses: in dynamic mode clear the cache and
re-test against the whole registry; in static mode do nothing. The passes
counter observes that one classification pass ran. -/
def updateValidClasses (g : Graph) (n : Nat) : Option Graph :=
  let gp : Graph := { g with passes := g.passes + 1 }
  if gp.dynamic then classifyLoop n (clearClasses gp n) gp.registry
  else some gp

/-- Modelled from the spec: python issubclass over the single inheritance
hierarchy, by name against the ancestor list. -/
def issub (c d : PClass) : Bool :=
  c.cname == d.cname || c.ancestors.contains d.cname

/-- ObjectNode.virtualClass: fold over the cached classes in insertion
order, replacing the candidate when the examined class is a subclass of it. -/
def virtualClass (g : Graph) (n : Nat) : PClass :=
  (cacheOf g n).foldl (fun acc c => if issub c acc then c else acc) baseObject

/-- Intermediate value of a chained property walk: the absent sentinel, a
literal, a single node, or a materialized multi valued collection. -/
inductive ChainRes where
  | absent
  | lit (l : Lit)
  | one (n : Nat)
  | many (ns : List Nat)
deriving DecidableEq, Repr

/-- Modelled from the spec: utils.toresult, collapsing a materialized
collection to the absent sentinel when empty and to its sole element when
it is a singleton. -/
def toresult : List Nat → ChainRes
  | [] => .absent
  | [x] => .one x
  | ns => .many ns

/-- Loop of ObjectNode.getChainedProperties: calling get on anything that
is not a node raises AttributeError, exactly as in python. -/
def chainGo (g : Graph) : ChainRes → List String → Except String ChainRes
  | cur, [] => .ok cur
  | .one n, p :: ps =>
    match get g n p with
    | none => chainGo g .absent ps
    | some (.lit l) => chainGo g (.lit l) ps
    | some (.nodes ns) => chainGo g (toresult ns) ps
  | _, _ :: _ => .error "AttributeError"

/-- ObjectNode.getChainedProperties started from a node. -/
def getChainedProperties (g : Graph) (n : Nat) (props : List String) : Except String ChainRes :=
  chainGo g (.one n) props

/-- Modelled from the spec: utils multiIsInstance against AbstractNode,
true for a node reference or a sequence of node references. -/
def multiIsInstance : PyVal → Bool
  | .node _ => true
  | .nodes _ => true
  | _ => false

/-- Modelled from the spec: utils isLiteral, true exactly for literal scalars. -/
def isLiteral : PyVal → Bool
  | .lit _ => true
  | _ => false

/-- Runtime kind name of a python value, as type(value).__name__. -/
def pyKind : PyVal → String
  | .lit (.str _) => "str"
  | .lit (.int _) => "int"
  | .lit (.bool _) => "bool"
  | .node _ => "ObjectNode"
  | .nodes _ => "list"
  | .other k => k

/-- Modelled from the spec: utils.isOf, the deterministic default mirror
name synthesized from the attribute name. -/
def isOf (name : String) : String :=
  "is" ++ name.capitalize ++ "Of"

/-- Modelled from the spec: graph store addLink, installing the forward
half edge and its mirror, and dropping any stale literal entry under the
two written attribute names to keep the two kinds mutually exclusive. -/
def gAddLink (g : Graph) (a : Nat) (name : String) (b : Nat) (rev : String) : Graph :=
  { g with
    edges := g.edges ++ [⟨a, name, b⟩, ⟨b, rev, a⟩],
    literals := eraseA (eraseA g.literals (a, name)) (b, rev) }

/-- Modelled from the spec: graph store removeLink, removing one forward
half edge and one mirror, a no-op on an edge that does not exist. -/
def gRemoveLink (g : Graph) (a : Nat) (name : String) (b : Nat) (rev : String) : Graph :=
  { g with edges := eraseOne ⟨b, rev, a⟩ (eraseOne ⟨a, name, b⟩ g.edges) }

/-- Node identifiers carried by a link argument, in order. -/
def linkTargets : PyVal → List Nat
  | .node m => [m]
  | .nodes ns => ns
  | _ => []

/-- ObjectNode.addLink: delegate each referenced node to the graph store. -/
def addLink (g : Graph) (n : Nat) (name : String) (v : PyVal) (rev : String) : Graph :=
  (linkTargets v).foldl (fun h m => gAddLink h n name m rev) g

/-- Materialization of the current edge set of an attribute through get,
with the python fallback list(self.get(name) or []). -/
def oldsOf (g : Graph) (n : Nat) (name : String) : List Nat :=
  match get g n name with
  | some (.nodes ns) => ns
  | _ => []

/-- ObjectNode.setLink: remove every currently linked edge under the
(name, mirror) pairing and then add the new set. -/
def setLink (g : Graph) (n : Nat) (name : String) (v : PyVal) (rev : String) : Graph :=
  let olds := oldsOf g n name
  addLink (olds.foldl (fun h m => gRemoveLink h n name m rev) g) n name v rev

/-- Modelled from the spec: setLiteral of the abstract node, overwriting
the literal slot. -/
def setLiteral (g : Graph) (n : Nat) (name : String) (l : Lit) : Graph :=
  { g with literals := setA g.literals (n, name) l }

/-- Errors surfaced by the node operations: the unsupported attribute
value TypeError carrying the offending name, value and runtime kind, and
the KeyError of a schema lookup of an unknown attribute. -/
inductive PyErr where
  | typeError (name : String) (v : PyVal) (kind : String)
  | keyError
deriving DecidableEq, Repr

/-- Propagate the KeyError of a classification pass. -/
def liftO : Option Graph → Except PyErr Graph
  | some g => .ok g
  | none => .error .keyError

/-- ObjectNode.set: dispatch on the kind of the value, then reclassify
unless validation is suppressed. -/
def set (g : Graph) (n : Nat) (name : String) (v : PyVal) (rev : Option String)
    (validate : Bool) : Except PyErr Graph :=
  if multiIsInstance v then
    let g1 := setLink g n name v (rev.getD (isOf name))
    if validate then liftO (updateValidClasses g1 n) else .ok g1
  else
    match v with
    | .lit l =>
      let g1 := setLiteral g n name l
      if validate then liftO (updateValidClasses g1 n) else .ok g1
    | _ => .error (.typeError name v (pyKind v))

/-- ObjectNode.append: link only variant of set, adding to the edge set. -/
def append (g : Graph) (n : Nat) (name : String) (v : PyVal) (rev : Option String)
    (validate : Bool) : Except PyErr Graph :=
  if multiIsInstance v then
    let g1 := addLink g n name v (rev.getD (isOf name))
    if validate then liftO (updateValidClasses g1 n) else .ok g1
  else .error (.typeError name v (pyKind v))

/-- Rebind the non owning backreference slot of a node. -/
def setBackref (g : Graph) (n : Nat) (v : PyVal) : Graph :=
  { g with backrefs := setA g.backrefs n v }

/-- ObjectNode.__setattr__: the reserved name graph rebinds the
backreference directly; every other name is routed through set. -/
def setattrN (g : Graph) (n : Nat) (name : String) (v : PyVal) : Except PyErr Graph :=
  if name == "graph" then .ok (setBackref g n v)
  else set g n name v none true

/-- Apply initial attribute triples with validation suppressed. -/
def applyProps (g : Graph) (n : Nat) : List (String × PyVal × Option String) → Except PyErr Graph
  | [] => .ok g
  | (p, v, rev) :: rest =>
    match set g n p v rev false with
    | .ok g1 => applyProps g1 n rest
    | .error e => .error e

/-- ObjectNode.__init__: bind the backreference, apply every triple
without intermediate reclassification, then run one classification pass. -/
def initNode (g : Graph) (n : Nat) (props : List (String × PyVal × Option String)) :
    Except PyErr Graph :=
  match applyProps (setBackref g n (.other "weakref")) n props with
  | .ok g1 => liftO (updateValidClasses g1 n)
  | .error e => .error e

/-- ObjectNode.update: bulk writes with validation suppressed, then one
classification pass. -/
def update (g : Graph) (n : Nat) (props : List (String × PyVal)) : Except PyErr Graph :=
  match applyProps g n (props.map (fun q => (q.1, q.2, none))) with
  | .ok g1 => liftO (updateValidClasses g1 n)
  | .error e => .error e

/-- Stated from the claim wording for C1: one required attribute passes
when a link valued attribute has an empty materialization or a first
referenced node classified as the expected class, and a literal valued
attribute has exactly the declared runtime kind; an absent attribute fails. -/
def requiredAttrPasses (g : Graph) (n : Nat) (cls : PClass) (p : String) : Bool :=
  match get g n p with
  | some (.nodes []) => true
  | some (.nodes (m :: _)) =>
    match schemaGet cls p with
    | some t => nodeIsinstance g m t
    | none => false
  | some (.lit l) =>
    match schemaGet cls p with
    | some (.lit k) => litKind l == k
    | _ => false
  | none => false

/-- No required link attribute of any registry class has the node itself
as the first referenced node; under this condition a classification test
of the node never reads its own evolving cache. -/
def noSelfFirst (g : Graph) (n : Nat) : Bool :=
  g.registry.all (fun c => c.valid.all (fun p =>
    match get g n p with
    | some (.nodes (m :: _)) => m != n
    | _ => true))

/-- Registry classes passing isValidInstance on the node, in registry order. -/
def validFilter (g : Graph) (n : Nat) : List PClass :=
  g.registry.filter (fun c => decide (isValidInstance g n c = some true))

/-- Edge level removal phase of setLink: per listed target, erase one
forward half edge and one mirror half edge. -/
def remEdges (n : Nat) (name rev : String) : List Edge → List Nat → List Edge
  | es, [] => es
  | es, m :: ms => remEdges n name rev (eraseOne ⟨m, rev, n⟩ (eraseOne ⟨n, name, m⟩ es)) ms

/-- Edge level addition phase of setLink: forward and mirror half edges in order. -/
def newEdges (n : Nat) (name rev : String) : List Nat → List Edge
  | [] => []
  | m :: ms => ⟨n, name, m⟩ :: ⟨m, rev, n⟩ :: newEdges n name rev ms

/-- Edge level effect of setLink when the removal loop enumerates exactly
the current targets of the attribute. -/
def SLedges (n : Nat) (name rev : String) (es : List Edge) (xs : List Nat) : List Edge :=
  remEdges n name rev es (targets es n name) ++ newEdges n name rev xs

/-- Empty graph in dynamic mode, base state of the concrete examples. -/
def emptyG : Graph :=
  { dynamic := true, registry := [], literals := [], edges := [], classCache := [],
    backrefs := [], passes := 0 }

/-- Node 1 with a literal and a link attribute, for the get witness. -/
def gW4 : Graph :=
  { emptyG with literals := [((1, "t"), .str "x")], edges := [⟨1, "f", 2⟩] }

/-- Chain 1 to 2 to 3 through singleton links. -/
def gW6 : Graph := setLink (setLink emptyG 1 "f" (.node 2) "fOf") 2 "h" (.node 3) "hOf"

/-- Node 1 fanning out to two nodes under one attribute. -/
def gW6b : Graph := setLink emptyG 1 "f" (.nodes [2, 3]) "fOf"

/-- Specialization of the base class, unrelated to vcD2. -/
def vcD1 : PClass := { cname := "D1", ancestors := ["BaseObject"], schema := [], valid := [] }

/-- Specialization of the base class, unrelated to vcD1. -/
def vcD2 : PClass := { cname := "D2", ancestors := ["BaseObject"], schema := [], valid := [] }

/-- Cache holding the two incomparable specializations in one order. -/
def vcGa : Graph := { emptyG with classCache := [(1, [vcD1, vcD2])] }

/-- Cache holding the two incomparable specializations in the other order. -/
def vcGb : Graph := { emptyG with classCache := [(1, [vcD2, vcD1])] }

/-- Superclass of vcE2 in a two step chain. -/
def vcE1 : PClass := { cname := "E1", ancestors := ["BaseObject"], schema := [], valid := [] }

/-- Most derived class of the chain used by the virtualClass witness. -/
def vcE2 : PClass := { cname := "E2", ancestors := ["E1", "BaseObject"], schema := [], valid := [] }

/-- Cache forming a single inheritance chain. -/
def vcGc : Graph := { emptyG with classCache := [(1, [vcE1, vcE2])] }

/-- Registry class requiring a link attribute f typed as class B. -/
def cxA : PClass := { cname := "A", ancestors := ["BaseObject"], schema := [("f", .node "B")], valid := ["f"] }

/-- Registry class with no requirements, satisfied by every node. -/
def cxB : PClass := { cname := "B", ancestors := ["BaseObject"], schema := [], valid := [] }

/-- Node 1 links to itself under f, with registry order testing A first. -/
def cxG : Graph :=
  { emptyG with
    registry := [cxA, cxB]
    edges := [⟨1, "f", 1⟩, ⟨1, "isFOf", 1⟩]
    classCache := [(1, [cxB])] }

/-- Node 1 links to node 2 under f, node 2 already classified as B. -/
def wG2 : Graph :=
  { emptyG with
    registry := [cxA, cxB]
    edges := [⟨1, "f", 2⟩, ⟨2, "isFOf", 1⟩]
    classCache := [(2, [cxB])] }

/-- Concrete result of constructing node 1 with one literal triple. -/
def w9G1 : Graph :=
  { emptyG with
    literals := [((1, "a"), .int 23)]
    classCache := [(1, [])]
    backrefs := [(1, .other "weakref")]
    passes := 1 }

-- ## Theorems

/-- First binding after setting the same key. -/
theorem lookupA_setA_self {α β : Type} [DecidableEq α] (l : List (α × β)) (a : α) (b : β) :
    lookupA (setA l a b) a = some b := by
  induction l with
  | nil => simp [setA, lookupA]
  | cons kv t ih =>
    obtain ⟨k, v⟩ := kv
    by_cases h : k = a <;> simp [setA, lookupA, h, ih]

/-- Binding of a different key after a set. -/
theorem lookupA_setA_ne {α β : Type} [DecidableEq α] (l : List (α × β)) (a a2 : α) (b : β)
    (h : a2 ≠ a) : lookupA (setA l a b) a2 = lookupA l a2 := by
  induction l with
  | nil => simp [setA, lookupA, Ne.symm h]
  | cons kv t ih =>
    obtain ⟨k, v⟩ := kv
    by_cases hk : k = a
    · subst hk
      simp [setA, lookupA, Ne.symm h]
    · simp [setA, lookupA, hk, ih]

/-- Setting the same key twice keeps only the second binding. -/
theorem setA_setA {α β : Type} [DecidableEq α] (l : List (α × β)) (a : α) (b b2 : β) :
    setA (setA l a b) a b2 = setA l a b2 := by
  induction l with
  | nil => simp [setA]
  | cons kv t ih =>
    obtain ⟨k, v⟩ := kv
    by_cases h : k = a <;> simp [setA, h, ih]

/-- Erasing a key leaves the lookup of another absent key absent. -/
theorem lookupA_eraseA_none {α β : Type} [DecidableEq α] (l : List (α × β)) (a a2 : α)
    (h : lookupA l a2 = none) : lookupA (eraseA l a) a2 = none := by
  induction l with
  | nil => simp [eraseA, lookupA]
  | cons kv t ih =>
    obtain ⟨k, v⟩ := kv
    by_cases hk2 : k = a2
    · subst hk2
      simp [lookupA] at h
    · simp [lookupA, hk2] at h
      by_cases hk : k = a
      · simp [eraseA, hk, ih h]
      · simp [eraseA, lookupA, hk, hk2, ih h]

/-- Erasing a key removes every binding of it. -/
theorem lookupA_eraseA_self {α β : Type} [DecidableEq α] (l : List (α × β)) (a : α) :
    lookupA (eraseA l a) a = none := by
  induction l with
  | nil => simp [eraseA, lookupA]
  | cons kv t ih =>
    obtain ⟨k, v⟩ := kv
    by_cases hk : k = a
    · simp [eraseA, hk, ih]
    · simp [eraseA, lookupA, hk, ih]

/-- C4 helper: the classification cache projection of setCacheG at the same node. -/
theorem cacheOf_setCacheG_self (g : Graph) (n : Nat) (l : List PClass) :
    cacheOf (setCacheG g n l) n = l := by
  simp [cacheOf, setCacheG, lookupA_setA_self]

/-- Cache of another node is untouched by setCacheG. -/
theorem cacheOf_setCacheG_ne (g : Graph) (n m : Nat) (l : List PClass) (h : m ≠ n) :
    cacheOf (setCacheG g n l) m = cacheOf g m := by
  simp [cacheOf, setCacheG, lookupA_setA_ne _ _ _ _ h]

/-- Setting the cache of the same node twice keeps the second value. -/
theorem setCacheG_setCacheG (g : Graph) (n : Nat) (l l2 : List PClass) :
    setCacheG (setCacheG g n l) n l2 = setCacheG g n l2 := by
  simp [setCacheG, setA_setA]

/-- Property reads only depend on the literal store and the edge index. -/
theorem get_congr (g h : Graph) (m : Nat) (p : String)
    (hl : h.literals = g.literals) (he : h.edges = g.edges) :
    get h m p = get g m p := by
  unfold get getattrN getLiteral litLookup outgoingEdgeEndpoints targets
  rw [hl, he]

/-- C4: get never raises; it returns the stored literal for a literal
attribute, the materialized target list for a link attribute, and the
absent sentinel none when the node has no attribute of that name. -/
theorem get_spec (g : Graph) (n : Nat) (name : String) :
    (∀ l, litLookup g n name = some l → get g n name = some (.lit l))
    ∧ (litLookup g n name = none → targets g.edges n name ≠ [] →
        get g n name = some (.nodes (targets g.edges n name)))
    ∧ (litLookup g n name = none → targets g.edges n name = [] →
        get g n name = none) := by
  refine ⟨?_, ?_, ?_⟩
  · intro l h
    simp [get, getattrN, getLiteral, h, Except.toOption]
  · intro h hne
    cases ht : targets g.edges n name with
    | nil => exact absurd ht hne
    | cons t ts =>
      simp [get, getattrN, getLiteral, outgoingEdgeEndpoints, h, ht, Except.toOption]
  · intro h ht
    simp [get, getattrN, getLiteral, outgoingEdgeEndpoints, h, ht, Except.toOption]

/-- Witness for get_spec at a node with a literal, a link and an absent name. -/
theorem get_spec_witness :
    get gW4 1 "t" = some (.lit (.str "x"))
    ∧ get gW4 1 "f" = some (.nodes (targets gW4.edges 1 "f"))
    ∧ get gW4 1 "z" = none :=
  ⟨(get_spec gW4 1 "t").1 (.str "x") (by decide),
   (get_spec gW4 1 "f").2.1 (by decide) (by decide),
   (get_spec gW4 1 "z").2.2 (by decide) (by decide)⟩

/-- C5: on a path whose last step is absent, getChainedProperties returns
the absent sentinel instead of raising, although an absent intermediate
step does raise AttributeError; this contradicts the documented behavior
that a missing property always raises. -/
theorem getChainedProperties_absent_last :
    getChainedProperties emptyG 1 ["x"] = .ok .absent
    ∧ getChainedProperties emptyG 1 ["x", "y"] = .error "AttributeError" :=
  ⟨rfl, rfl⟩

/-- C6: a singleton materialization is collapsed to its element before the
next step, a two step singleton chain resolves to the final node, and a
fan out of two or more nodes is carried forward whole. -/
theorem getChainedProperties_collapse (g : Graph) (a m : Nat) (p : String) (rest : List String) :
    (get g a p = some (.nodes [m]) →
      getChainedProperties g a (p :: rest) = getChainedProperties g m rest)
    ∧ (∀ b c ab bc, get g a ab = some (.nodes [b]) → get g b bc = some (.nodes [c]) →
        getChainedProperties g a [ab, bc] = .ok (.one c))
    ∧ (∀ ns, get g a p = some (.nodes ns) → 2 ≤ ns.length →
        getChainedProperties g a [p] = .ok (.many ns)) := by
  refine ⟨?_, ?_, ?_⟩
  · intro h
    simp [getChainedProperties, chainGo, h, toresult]
  · intro b c ab bc h1 h2
    simp [getChainedProperties, chainGo, h1, h2, toresult]
  · intro ns h hlen
    match ns, hlen with
    | x :: y :: t, _ =>
      simp [getChainedProperties, chainGo, h, toresult]

/-- Witness for getChainedProperties_collapse on a concrete chain and fan out. -/
theorem getChainedProperties_collapse_witness :
    get gW6 1 "f" = some (.nodes [2]) ∧ get gW6 2 "h" = some (.nodes [3])
    ∧ getChainedProperties gW6 1 ["f", "h"] = .ok (.one 3)
    ∧ get gW6b 1 "f" = some (.nodes [2, 3])
    ∧ getChainedProperties gW6b 1 ["f"] = .ok (.many [2, 3]) :=
  ⟨by decide, by decide,
   (getChainedProperties_collapse gW6 1 0 "f" []).2.1 2 3 "f" "h" (by decide) (by decide),
   by decide,
   (getChainedProperties_collapse gW6b 1 0 "f" []).2.2 [2, 3] (by decide) (by decide)⟩

/-- C8: set fails with the unsupported attribute value TypeError, naming
the attribute, the value and its runtime kind, whenever the value is
neither a literal nor a node reference or sequence of node references;
append fails identically, and also on plain literal values. -/
theorem set_append_unsupported (g : Graph) (n : Nat) (name : String) (v : PyVal)
    (rev : Option String) (validate : Bool) :
    (multiIsInstance v = false → isLiteral v = false →
      set g n name v rev validate = .error (.typeError name v (pyKind v))
      ∧ append g n name v rev validate = .error (.typeError name v (pyKind v)))
    ∧ (∀ l, append g n name (.lit l) rev validate
        = .error (.typeError name (.lit l) (pyKind (.lit l)))) := by
  refine ⟨?_, ?_⟩
  · intro h1 h2
    cases v with
    | lit l => simp [isLiteral] at h2
    | node m => simp [multiIsInstance] at h1
    | nodes ns => simp [multiIsInstance] at h1
    | other k => exact ⟨rfl, rfl⟩
  · intro l
    rfl

/-- Witness for set_append_unsupported at a dict like value and a literal. -/
theorem set_append_unsupported_witness :
    multiIsInstance (.other "dict") = false ∧ isLiteral (.other "dict") = false
    ∧ set emptyG 1 "x" (.other "dict") none true
        = .error (.typeError "x" (.other "dict") (pyKind (.other "dict")))
    ∧ append emptyG 1 "x" (.other "dict") none true
        = .error (.typeError "x" (.other "dict") (pyKind (.other "dict")))
    ∧ append emptyG 1 "x" (.lit (.int 5)) none true
        = .error (.typeError "x" (.lit (.int 5)) (pyKind (.lit (.int 5)))) :=
  ⟨rfl, rfl,
   ((set_append_unsupported emptyG 1 "x" (.other "dict") none true).1 rfl rfl).1,
   ((set_append_unsupported emptyG 1 "x" (.other "dict") none true).1 rfl rfl).2,
   (set_append_unsupported emptyG 1 "x" (.lit (.int 0)) none true).2 (.int 5)⟩

/-- C10: attribute assignment is routed through set for every name except
the reserved name graph, whose assignment only rebinds the backreference
slot: it stores no literal, no edge, changes no classification state,
runs no classification pass, and leaves every property read unchanged. -/
theorem setattr_graph_reserved (g : Graph) (n : Nat) (name : String) (v : PyVal) :
    (name ≠ "graph" → setattrN g n name v = set g n name v none true)
    ∧ setattrN g n "graph" v = .ok (setBackref g n v)
    ∧ (setBackref g n v).literals = g.literals
    ∧ (setBackref g n v).edges = g.edges
    ∧ (setBackref g n v).classCache = g.classCache
    ∧ (setBackref g n v).passes = g.passes
    ∧ lookupA (setBackref g n v).backrefs n = some v
    ∧ (∀ m q, get (setBackref g n v) m q = get g m q) := by
  refine ⟨?_, rfl, rfl, rfl, rfl, rfl, ?_, ?_⟩
  · intro h
    simp [setattrN, h]
  · exact lookupA_setA_self g.backrefs n v
  · intro m q
    exact get_congr g (setBackref g n v) m q rfl rfl

/-- Witness for setattr_graph_reserved at a non reserved name. -/
theorem setattr_graph_reserved_witness :
    ("x" ≠ "graph")
    ∧ setattrN emptyG 1 "x" (.lit (.int 1)) = set emptyG 1 "x" (.lit (.int 1)) none true
    ∧ setattrN emptyG 1 "graph" (.node 5) = .ok (setBackref emptyG 1 (.node 5))
    ∧ lookupA (setBackref emptyG 1 (.node 5)).backrefs 1 = some (.node 5) :=
  ⟨by decide,
   (setattr_graph_reserved emptyG 1 "x" (.lit (.int 1))).1 (by decide),
   (setattr_graph_reserved emptyG 1 "graph" (.node 5)).2.1,
   (setattr_graph_reserved emptyG 1 "graph" (.node 5)).2.2.2.2.2.2.1⟩

/-- Required attribute loop agrees with the per attribute check of the claim. -/
theorem hvp_spec_aux (g : Graph) (n : Nat) (cls : PClass) :
    ∀ ps : List String, (∀ p ∈ ps, (schemaGet cls p).isSome) →
      (hasValidProperties g n cls ps = some true
        ↔ ∀ p ∈ ps, requiredAttrPasses g n cls p = true) := by
  intro ps
  induction ps with
  | nil => intro _; simp [hasValidProperties]
  | cons p ps ih =>
    intro h
    have hp : (schemaGet cls p).isSome := h p (List.mem_cons_self p ps)
    have hps : ∀ q ∈ ps, (schemaGet cls q).isSome :=
      fun q hq => h q (List.mem_cons_of_mem p hq)
    obtain ⟨t, ht⟩ := Option.isSome_iff_exists.mp hp
    rw [List.forall_mem_cons]
    cases hg : get g n p with
    | none =>
      simp [hasValidProperties, hg, ht, typeMatches, requiredAttrPasses]
    | some val =>
      cases val with
      | lit l =>
        cases t with
        | lit k =>
          by_cases hlk : (litKind l == k) = true
          · simp [hasValidProperties, hg, ht, typeMatches, requiredAttrPasses, hlk, ih hps]
          · simp [hasValidProperties, hg, ht, typeMatches, requiredAttrPasses, hlk]
        | node cn =>
          simp [hasValidProperties, hg, ht, typeMatches, requiredAttrPasses]
      | nodes ns =>
        cases ns with
        | nil => simp [hasValidProperties, hg, requiredAttrPasses, ih hps]
        | cons m ms =>
          by_cases hni : nodeIsinstance g m t = true
          · simp [hasValidProperties, hg, ht, hni, requiredAttrPasses, ih hps]
          · simp [hasValidProperties, hg, ht, hni, requiredAttrPasses]

/-- C1: when every required attribute occurs in the schema mapping,
isValidInstance answers true exactly when every required attribute passes
the per attribute check stated by the claim: a link valued attribute with
a non empty materialization needs only its first referenced node to be
classified as the expected class and an empty one passes vacuously, while
a literal valued attribute must carry exactly the declared runtime kind. -/
theorem isValidInstance_spec (g : Graph) (n : Nat) (cls : PClass)
    (hwf : ∀ p ∈ cls.valid, (schemaGet cls p).isSome) :
    isValidInstance g n cls = some true
      ↔ ∀ p ∈ cls.valid, requiredAttrPasses g n cls p = true := by
  unfold isValidInstance
  exact hvp_spec_aux g n cls cls.valid hwf

/-- Witness for isValidInstance_spec on a concrete class and graph. -/
theorem isValidInstance_spec_witness :
    (∀ p ∈ cxA.valid, (schemaGet cxA p).isSome)
    ∧ (isValidInstance wG2 1 cxA = some true
        ↔ ∀ p ∈ cxA.valid, requiredAttrPasses wG2 1 cxA p = true)
    ∧ isValidInstance wG2 1 cxA = some true
    ∧ isValidInstance wG2 3 cxA = some false :=
  ⟨by decide, isValidInstance_spec wG2 1 cxA (by decide), by decide, by decide⟩

/-- Subclass ordering is reflexive. -/
theorem issub_refl (c : PClass) : issub c c = true := by
  simp [issub]

/-- When no cached class is a proper specialization of the base class the
fold of virtualClass keeps the base class. -/
theorem vcFoldBase : ∀ (l : List PClass),
    (∀ c ∈ l, issub c baseObject = true → c = baseObject) →
    l.foldl (fun acc c => if issub c acc then c else acc) baseObject = baseObject := by
  intro l
  induction l with
  | nil => intro _; rfl
  | cons c t ih =>
    intro h
    by_cases hc : issub c baseObject = true
    · have hcb := h c (List.mem_cons_self c t) hc
      subst hcb
      simpa [List.foldl_cons] using ih (fun d hd => h d (List.mem_cons_of_mem _ hd))
    · simpa [List.foldl_cons, hc] using ih (fun d hd => h d (List.mem_cons_of_mem _ hd))

/-- Fold of virtualClass computes a lower bound of every listed class when
the listed classes are all specializations of the base class, pairwise
comparable, and the subclass relation is transitive on them. -/
theorem vcFoldMin (U : List PClass)
    (hsub : ∀ c ∈ U, issub c baseObject = true)
    (htot : ∀ c ∈ U, ∀ d ∈ U, issub c d = true ∨ issub d c = true)
    (htrans : ∀ a ∈ baseObject :: U, ∀ b ∈ baseObject :: U, ∀ c ∈ baseObject :: U,
      issub a b = true → issub b c = true → issub a c = true) :
    ∀ (l : List PClass) (acc : PClass), (∀ c ∈ l, c ∈ U) → acc ∈ baseObject :: U →
      (l.foldl (fun acc c => if issub c acc then c else acc) acc ∈ baseObject :: U)
      ∧ issub (l.foldl (fun acc c => if issub c acc then c else acc) acc) acc = true
      ∧ ∀ c ∈ l, issub (l.foldl (fun acc c => if issub c acc then c else acc) acc) c = true := by
  intro l
  induction l with
  | nil =>
    intro acc _ hacc
    exact ⟨hacc, issub_refl acc, by simp⟩
  | cons c t ih =>
    intro acc hl hacc
    have hcU : c ∈ U := hl c (List.mem_cons_self c t)
    have hlt : ∀ d ∈ t, d ∈ U := fun d hd => hl d (List.mem_cons_of_mem c hd)
    by_cases hc : issub c acc = true
    · have step : (c :: t).foldl (fun acc c => if issub c acc then c else acc) acc
          = t.foldl (fun acc c => if issub c acc then c else acc) c := by
        simp [List.foldl_cons, hc]
      obtain ⟨m1, i1, i2⟩ := ih c hlt (List.mem_cons_of_mem _ hcU)
      rw [step]
      refine ⟨m1, ?_, ?_⟩
      · exact htrans _ m1 c (List.mem_cons_of_mem _ hcU) acc hacc i1 hc
      · rw [List.forall_mem_cons]
        exact ⟨i1, i2⟩
    · have step : (c :: t).foldl (fun acc c => if issub c acc then c else acc) acc
          = t.foldl (fun acc c => if issub c acc then c else acc) acc := by
        simp [List.foldl_cons, hc]
      have hca : issub acc c = true := by
        rcases List.mem_cons.mp hacc with hb | hu
        · subst hb
          exact absurd (hsub c hcU) hc
        · exact (htot c hcU acc hu).resolve_left hc
      obtain ⟨m1, i1, i2⟩ := ih acc hlt hacc
      rw [step]
      refine ⟨m1, i1, ?_⟩
      rw [List.forall_mem_cons]
      exact ⟨htrans _ m1 acc hacc c (List.mem_cons_of_mem _ hcU) i1 hca, i2⟩

/-- C7: virtualClass returns the base class when the cache holds no proper
specialization of it; over a cache forming a single inheritance chain its
fold yields a most derived class, a subclass of every cached class; and on
a cache of two incomparable specializations the result is order dependent,
keeping the last class that replaced the running candidate. -/
theorem virtualClass_spec (g : Graph) (n : Nat) :
    ((∀ c ∈ cacheOf g n, issub c baseObject = true → c = baseObject) →
      virtualClass g n = baseObject)
    ∧ ((∀ c ∈ cacheOf g n, issub c baseObject = true) →
       (∀ c ∈ cacheOf g n, ∀ d ∈ cacheOf g n, issub c d = true ∨ issub d c = true) →
       (∀ a ∈ baseObject :: cacheOf g n, ∀ b ∈ baseObject :: cacheOf g n,
         ∀ c ∈ baseObject :: cacheOf g n,
         issub a b = true → issub b c = true → issub a c = true) →
       ∀ c ∈ cacheOf g n, issub (virtualClass g n) c = true)
    ∧ virtualClass vcGa 1 = vcD1 ∧ virtualClass vcGb 1 = vcD2 := by
  refine ⟨?_, ?_, by decide, by decide⟩
  · intro h
    exact vcFoldBase (cacheOf g n) h
  · intro hsub htot htrans
    exact (vcFoldMin (cacheOf g n) hsub htot htrans (cacheOf g n) baseObject
      (fun c hc => hc) (List.mem_cons_self _ _)).2.2

/-- Witness for virtualClass_spec on a two step chain and an empty cache. -/
theorem virtualClass_spec_witness :
    (∀ c ∈ cacheOf vcGc 1, issub c baseObject = true)
    ∧ (∀ c ∈ cacheOf vcGc 1, issub (virtualClass vcGc 1) c = true)
    ∧ virtualClass vcGc 1 = vcE2
    ∧ virtualClass emptyG 1 = baseObject :=
  ⟨by decide,
   (virtualClass_spec vcGc 1).2.1 (by decide) (by decide) (by decide),
   by decide,
   (virtualClass_spec emptyG 1).1 (by decide)⟩

/-- Folding a pass preserving step preserves the pass counter. -/
theorem foldl_passes (f : Graph → Nat → Graph) (hf : ∀ g m, (f g m).passes = g.passes) :
    ∀ (l : List Nat) (g : Graph), (l.foldl f g).passes = g.passes := by
  intro l
  induction l with
  | nil => intro g; rfl
  | cons m t ih => intro g; rw [List.foldl_cons, ih, hf]

/-- Folding a cache preserving step preserves the classification caches. -/
theorem foldl_classCache (f : Graph → Nat → Graph)
    (hf : ∀ g m, (f g m).classCache = g.classCache) :
    ∀ (l : List Nat) (g : Graph), (l.foldl f g).classCache = g.classCache := by
  intro l
  induction l with
  | nil => intro g; rfl
  | cons m t ih => intro g; rw [List.foldl_cons, ih, hf]

/-- Link replacement never touches the pass counter. -/
theorem setLink_passes (g : Graph) (n : Nat) (name : String) (v : PyVal) (rev : String) :
    (setLink g n name v rev).passes = g.passes := by
  unfold setLink addLink
  rw [foldl_passes (fun h m => gAddLink h n name m rev) (fun _ _ => rfl),
    foldl_passes (fun h m => gRemoveLink h n name m rev) (fun _ _ => rfl)]

/-- Link replacement never touches the classification caches. -/
theorem setLink_classCache (g : Graph) (n : Nat) (name : String) (v : PyVal) (rev : String) :
    (setLink g n name v rev).classCache = g.classCache := by
  unfold setLink addLink
  rw [foldl_classCache (fun h m => gAddLink h n name m rev) (fun _ _ => rfl),
    foldl_classCache (fun h m => gRemoveLink h n name m rev) (fun _ _ => rfl)]

/-- A write with validation suppressed changes neither the pass counter
nor any classification cache. -/
theorem set_false_inv (g : Graph) (n : Nat) (p : String) (v : PyVal) (rev : Option String)
    (g1 : Graph) (h : set g n p v rev false = .ok g1) :
    g1.passes = g.passes ∧ g1.classCache = g.classCache := by
  cases v with
  | lit l =>
    simp [set, multiIsInstance] at h
    rw [← h]
    exact ⟨rfl, rfl⟩
  | node m =>
    simp [set, multiIsInstance] at h
    rw [← h]
    exact ⟨setLink_passes .., setLink_classCache ..⟩
  | nodes ns =>
    simp [set, multiIsInstance] at h
    rw [← h]
    exact ⟨setLink_passes .., setLink_classCache ..⟩
  | other k =>
    simp [set, multiIsInstance] at h

/-- A batch of suppressed writes changes neither the pass counter nor any
classification cache. -/
theorem applyProps_inv (n : Nat) : ∀ (props : List (String × PyVal × Option String))
    (g g1 : Graph), applyProps g n props = .ok g1 →
    g1.passes = g.passes ∧ g1.classCache = g.classCache := by
  intro props
  induction props with
  | nil =>
    intro g g1 h
    simp [applyProps] at h
    rw [← h]
    exact ⟨rfl, rfl⟩
  | cons q rest ih =>
    intro g g1 h
    obtain ⟨p, v, rev⟩ := q
    unfold applyProps at h
    cases hs : set g n p v rev false with
    | error e => rw [hs] at h; simp at h
    | ok g2 =>
      rw [hs] at h
      obtain ⟨h1, h2⟩ := ih g2 g1 h
      obtain ⟨h3, h4⟩ := set_false_inv g n p v rev g2 hs
      exact ⟨h1.trans h3, h2.trans h4⟩

/-- Classification loop never touches the pass counter. -/
theorem classifyLoop_passes (n : Nat) : ∀ (cs : List PClass) (g g' : Graph),
    classifyLoop n g cs = some g' → g'.passes = g.passes := by
  intro cs
  induction cs with
  | nil =>
    intro g g' h
    simp [classifyLoop] at h
    rw [← h]
  | cons c t ih =>
    intro g g' h
    unfold classifyLoop at h
    cases hi : isValidInstance g n c with
    | none => rw [hi] at h; simp at h
    | some b =>
      rw [hi] at h
      cases b with
      | true => exact (ih (addClass g n c) g' h).trans rfl
      | false => exact ih g g' h

/-- A classification pass increments the pass counter by exactly one. -/
theorem uvc_passes (g : Graph) (n : Nat) (g' : Graph)
    (h : updateValidClasses g n = some g') : g'.passes = g.passes + 1 := by
  unfold updateValidClasses at h
  by_cases hd : g.dynamic = true
  · simp only [hd, if_true] at h
    exact classifyLoop_passes n g.registry _ g' h
  · simp only [hd, if_false, Bool.false_eq_true] at h
    rw [← Option.some_inj.mp h]

/-- C9: construction applies every initial triple with reclassification
suppressed, so that between the individual writes the pass counter and
every classification cache stay exactly as before, and then performs one
single final classification pass; the bulk update path behaves the same. -/
theorem init_update_single_pass (g : Graph) (n : Nat)
    (props : List (String × PyVal × Option String)) (dprops : List (String × PyVal))
    (g1 g2 : Graph) :
    (initNode g n props = .ok g1 →
      ∃ h, applyProps (setBackref g n (.other "weakref")) n props = .ok h
        ∧ h.passes = g.passes ∧ h.classCache = g.classCache
        ∧ updateValidClasses h n = some g1 ∧ g1.passes = g.passes + 1)
    ∧ (update g n dprops = .ok g2 →
      ∃ h, applyProps g n (dprops.map (fun q => (q.1, q.2, none))) = .ok h
        ∧ h.passes = g.passes ∧ h.classCache = g.classCache
        ∧ updateValidClasses h n = some g2 ∧ g2.passes = g.passes + 1) := by
  constructor
  · intro hi
    unfold initNode at hi
    cases ha : applyProps (setBackref g n (.other "weakref")) n props with
    | error e => rw [ha] at hi; simp at hi
    | ok h =>
      rw [ha] at hi
      have hi2 : liftO (updateValidClasses h n) = Except.ok g1 := hi
      cases hu : updateValidClasses h n with
      | none => rw [hu] at hi2; simp [liftO] at hi2
      | some g' =>
        rw [hu] at hi2
        simp [liftO] at hi2
        obtain ⟨h1, h2⟩ := applyProps_inv n props (setBackref g n (.other "weakref")) h ha
        have hg : updateValidClasses h n = some g1 := by rw [hu, hi2]
        exact ⟨h, rfl, h1, h2, hg, by rw [uvc_passes h n g1 hg, h1]; rfl⟩
  · intro hi
    unfold update at hi
    cases ha : applyProps g n (dprops.map (fun q => (q.1, q.2, none))) with
    | error e => rw [ha] at hi; simp at hi
    | ok h =>
      rw [ha] at hi
      have hi2 : liftO (updateValidClasses h n) = Except.ok g2 := hi
      cases hu : updateValidClasses h n with
      | none => rw [hu] at hi2; simp [liftO] at hi2
      | some g' =>
        rw [hu] at hi2
        simp [liftO] at hi2
        obtain ⟨h1, h2⟩ := applyProps_inv n (dprops.map (fun q => (q.1, q.2, none))) g h ha
        have hg : updateValidClasses h n = some g2 := by rw [hu, hi2]
        exact ⟨h, rfl, h1, h2, hg, by rw [uvc_passes h n g2 hg, h1]⟩

/-- Witness for init_update_single_pass on a concrete construction. -/
theorem init_update_single_pass_witness :
    initNode emptyG 1 [("a", .lit (.int 23), none)] = .ok w9G1
    ∧ ∃ h, applyProps (setBackref emptyG 1 (.other "weakref")) 1 [("a", .lit (.int 23), none)] = .ok h
        ∧ h.passes = emptyG.passes ∧ h.classCache = emptyG.classCache
        ∧ updateValidClasses h 1 = some w9G1 ∧ w9G1.passes = emptyG.passes + 1 :=
  ⟨by rfl,
   (init_update_single_pass emptyG 1 [("a", .lit (.int 23), none)] [] w9G1 w9G1).1 (by rfl)⟩

/-- Instance tests of another node only depend on that node's cache. -/
theorem nodeIsinstance_congr (g h : Graph) (m : Nat) (hcm : cacheOf h m = cacheOf g m) :
    ∀ t, nodeIsinstance h m t = nodeIsinstance g m t := by
  intro t
  cases t with
  | node cn => simp [nodeIsinstance, hcm]
  | lit k => rfl

/-- A validity test of a node is unchanged by rewriting its own cache, as
long as no checked link attribute has the node itself as first target. -/
theorem hvp_indep (g h : Graph) (n : Nat) (cls : PClass)
    (hl : h.literals = g.literals) (he : h.edges = g.edges)
    (hcc : ∀ m, m ≠ n → cacheOf h m = cacheOf g m) :
    ∀ ps : List String,
      (∀ p ∈ ps, (match get g n p with
        | some (.nodes (m :: _)) => m ≠ n
        | _ => True)) →
      hasValidProperties h n cls ps = hasValidProperties g n cls ps := by
  intro ps
  induction ps with
  | nil => intro _; rfl
  | cons p ps ih =>
    intro hp
    have hg : get h n p = get g n p := get_congr g h n p hl he
    have hrest := fun q hq => hp q (List.mem_cons_of_mem p hq)
    have hphead := hp p (List.mem_cons_self p ps)
    cases hgv : get g n p with
    | none => simp only [hasValidProperties, hg, hgv, ih hrest]
    | some val =>
      cases val with
      | lit l => simp only [hasValidProperties, hg, hgv, ih hrest]
      | nodes ns =>
        cases ns with
        | nil => simp only [hasValidProperties, hg, hgv, ih hrest]
        | cons m ms =>
          rw [hgv] at hphead
          simp only [hasValidProperties, hg, hgv, ih hrest,
            nodeIsinstance_congr g h m (hcc m hphead)]

/-- Bounded form of the no self reference side condition. -/
theorem noSelfFirst_prop (g : Graph) (n : Nat) (hns : noSelfFirst g n = true) :
    ∀ cls ∈ g.registry, ∀ p ∈ cls.valid,
      (match get g n p with
        | some (.nodes (m :: _)) => m ≠ n
        | _ => True) := by
  intro cls hcls p hp
  have h1 := (List.all_eq_true.mp hns) cls hcls
  have h2 := (List.all_eq_true.mp h1) p hp
  cases hg : get g n p with
  | none => trivial
  | some val =>
    cases val with
    | lit l => trivial
    | nodes ns =>
      cases ns with
      | nil => trivial
      | cons m ms =>
        rw [hg] at h2
        simpa using h2

/-- Under the no self reference condition the classification loop appends
exactly the registry classes passing the validity test on the fixed
surrounding state. -/
theorem classifyLoop_filter (g : Graph) (n : Nat) (hns : noSelfFirst g n = true)
    (hB : Graph) (hl : hB.literals = g.literals) (he : hB.edges = g.edges)
    (hcc : ∀ m, m ≠ n → cacheOf hB m = cacheOf g m) :
    ∀ (cs : List PClass), (∀ c ∈ cs, c ∈ g.registry) →
      (∀ c ∈ cs, (isValidInstance g n c).isSome) →
      ∀ (l : List PClass),
      classifyLoop n (setCacheG hB n l) cs
        = some (setCacheG hB n
            (l ++ cs.filter (fun c => decide (isValidInstance g n c = some true)))) := by
  intro cs
  induction cs with
  | nil => intro _ _ l; simp [classifyLoop]
  | cons c t ih =>
    intro hreg hsome l
    have hcreg : c ∈ g.registry := hreg c (List.mem_cons_self c t)
    have hivi : isValidInstance (setCacheG hB n l) n c = isValidInstance g n c := by
      unfold isValidInstance
      exact hvp_indep g (setCacheG hB n l) n c hl he
        (fun m hm => (cacheOf_setCacheG_ne hB n m l hm).trans (hcc m hm))
        c.valid (noSelfFirst_prop g n hns c hcreg)
    obtain ⟨b, hb⟩ := Option.isSome_iff_exists.mp (hsome c (List.mem_cons_self c t))
    unfold classifyLoop
    rw [hivi, hb]
    cases b with
    | true =>
      have haddc : addClass (setCacheG hB n l) n c = setCacheG hB n (l ++ [c]) := by
        unfold addClass
        rw [cacheOf_setCacheG_self, setCacheG_setCacheG]
      rw [haddc, ih (fun d hd => hreg d (List.mem_cons_of_mem _ hd))
        (fun d hd => hsome d (List.mem_cons_of_mem _ hd)) (l ++ [c])]
      simp [List.filter_cons, hb, List.append_assoc]
    | false =>
      rw [ih (fun d hd => hreg d (List.mem_cons_of_mem _ hd))
        (fun d hd => hsome d (List.mem_cons_of_mem _ hd)) l]
      simp [List.filter_cons, hb]

/-- C2 counterexample: node 1 links to itself under the required attribute
of class A; after the dynamic rebuild the cache holds exactly B, yet the
registry classes passing isValidInstance on the node are A and B, both on
the state before the call and on the state after it. -/
theorem updateValidClasses_counterexample :
    (updateValidClasses cxG 1).map (fun h => cacheOf h 1) = some [cxB]
    ∧ validFilter cxG 1 = [cxA, cxB]
    ∧ (updateValidClasses cxG 1).map (fun h => validFilter h 1) = some [cxA, cxB]
    ∧ ([cxB] : List PClass) ≠ [cxA, cxB] := by
  refine ⟨by rfl, by rfl, by rfl, by decide⟩

/-- C2 amended: in dynamic mode the rebuild tests registry classes
sequentially against the partially rebuilt cache; whenever no required
link attribute of a registry class has the node itself as first target and
every test is well defined, the resulting cache equals exactly the
registry classes that pass isValidInstance on the node; in static mode
every classification cache is left completely unchanged. -/
theorem updateValidClasses_amended (g : Graph) (n : Nat) :
    (g.dynamic = true → noSelfFirst g n = true →
      (∀ c ∈ g.registry, (isValidInstance g n c).isSome) →
      ∃ g', updateValidClasses g n = some g' ∧ cacheOf g' n = validFilter g n
        ∧ g'.literals = g.literals ∧ g'.edges = g.edges)
    ∧ (g.dynamic = false →
      ∃ g', updateValidClasses g n = some g'
        ∧ g'.classCache = g.classCache ∧ g'.literals = g.literals ∧ g'.edges = g.edges) := by
  constructor
  · intro hd hns hsome
    have hloop := classifyLoop_filter g n hns ({ g with passes := g.passes + 1 })
      rfl rfl (fun m _ => rfl) g.registry (fun c hc => hc) hsome []
    refine ⟨setCacheG { g with passes := g.passes + 1 } n (validFilter g n), ?_, ?_, rfl, rfl⟩
    · unfold updateValidClasses
      rw [if_pos hd]
      unfold clearClasses
      rw [hloop]
      simp [validFilter]
    · exact cacheOf_setCacheG_self { g with passes := g.passes + 1 } n (validFilter g n)
  · intro hd
    refine ⟨{ g with passes := g.passes + 1 }, ?_, rfl, rfl, rfl⟩
    unfold updateValidClasses
    rw [if_neg (by simp [hd])]

/-- Witness for updateValidClasses_amended on a graph without self links. -/
theorem updateValidClasses_amended_witness :
    wG2.dynamic = true ∧ noSelfFirst wG2 1 = true
    ∧ (∀ c ∈ wG2.registry, (isValidInstance wG2 1 c).isSome)
    ∧ ∃ g', updateValidClasses wG2 1 = some g' ∧ cacheOf g' 1 = validFilter wG2 1
        ∧ g'.literals = wG2.literals ∧ g'.edges = wG2.edges :=
  ⟨rfl, by decide, by decide,
   (updateValidClasses_amended wG2 1).1 rfl (by decide) (by decide)⟩

/-- Occurrence count after removing one element. -/
theorem cnt_eraseOne {α : Type} [DecidableEq α] (b a : α) :
    ∀ l : List α, cnt a (eraseOne b l) = if b = a then cnt a l - 1 else cnt a l := by
  intro l
  induction l with
  | nil => by_cases hba : b = a <;> simp [eraseOne, cnt, hba]
  | cons c t ih =>
    by_cases hcb : c = b
    · subst hcb
      have hone : eraseOne c (c :: t) = t := by simp [eraseOne]
      rw [hone]
      by_cases hba : c = a <;> simp [cnt, hba]
    · have hone : eraseOne b (c :: t) = c :: eraseOne b t := by simp [eraseOne, hcb]
      rw [hone]
      by_cases hba : b = a
      · by_cases hca : c = a
        · exact absurd (hca.trans hba.symm) hcb
        · simp only [cnt, ih]
          simp [hba, hca]
      · simp [cnt, ih, hba]

/-- Removing one element never increases a count. -/
theorem cnt_eraseOne_le {α : Type} [DecidableEq α] (b a : α) (l : List α) :
    cnt a (eraseOne b l) ≤ cnt a l := by
  rw [cnt_eraseOne]
  split <;> omega

/-- Counts add over concatenation. -/
theorem cnt_append {α : Type} [DecidableEq α] (a : α) :
    ∀ l1 l2 : List α, cnt a (l1 ++ l2) = cnt a l1 + cnt a l2 := by
  intro l1 l2
  induction l1 with
  | nil => simp [cnt]
  | cons c t ih => simp [cnt, ih]; omega

/-- Forward half edge counts equal target multiplicities. -/
theorem cnt_targets (n : Nat) (name : String) (t : Nat) :
    ∀ es : List Edge, cnt (⟨n, name, t⟩ : Edge) es = cnt t (targets es n name) := by
  intro es
  induction es with
  | nil => rfl
  | cons e es ih =>
    obtain ⟨s, w, tg⟩ := e
    by_cases h1 : s = n
    · by_cases h2 : w = name
      · by_cases h3 : tg = t <;>
          simp [cnt, targets, List.filterMap_cons, h1, h2, h3, Edge.mk.injEq, ih]
      · simp [cnt, targets, List.filterMap_cons, h1, h2, Edge.mk.injEq, ih]
    · simp [cnt, targets, List.filterMap_cons, h1, Edge.mk.injEq, ih]

/-- An attribute with zero forward counts has no targets. -/
theorem targets_nil_of_cnt (n : Nat) (name : String) :
    ∀ es : List Edge, (∀ t, cnt (⟨n, name, t⟩ : Edge) es = 0) →
      targets es n name = [] := by
  intro es
  induction es with
  | nil => intro _; rfl
  | cons e es ih =>
    intro h
    obtain ⟨s, w, tg⟩ := e
    by_cases h1 : s = n
    · by_cases h2 : w = name
      · exfalso
        have := h tg
        subst h1; subst h2
        simp [cnt] at this
      · refine (by simp [targets, List.filterMap_cons, h2] : targets _ n name = targets es n name).trans (ih ?_)
        intro t
        have := h t
        simp [cnt, Edge.mk.injEq, h2] at this
        exact this
    · refine (by simp [targets, List.filterMap_cons, h1] : targets _ n name = targets es n name).trans (ih ?_)
      intro t
      have := h t
      simp [cnt, Edge.mk.injEq, h1] at this
      exact this

/-- Counts of a half edge that the removal loop never erases. -/
theorem remEdges_other (n : Nat) (name rev : String) (e : Edge)
    (hfwd : ¬(e.src = n ∧ e.nm = name)) (hmir : ¬(e.nm = rev ∧ e.tgt = n)) :
    ∀ (olds : List Nat) (es : List Edge),
      cnt e (remEdges n name rev es olds) = cnt e es := by
  intro olds
  induction olds with
  | nil => intro es; rfl
  | cons m ms ih =>
    intro es
    unfold remEdges
    rw [ih]
    have h1 : (⟨n, name, m⟩ : Edge) ≠ e := by
      intro hh
      exact hfwd (by rw [← hh]; exact ⟨rfl, rfl⟩)
    have h2 : (⟨m, rev, n⟩ : Edge) ≠ e := by
      intro hh
      exact hmir (by rw [← hh]; exact ⟨rfl, rfl⟩)
    rw [cnt_eraseOne, if_neg h2, cnt_eraseOne, if_neg h1]

/-- Counts of a mirror half edge through the removal loop: one erase per
listed occurrence of its source, truncated at zero. -/
theorem remEdges_mirror (n : Nat) (name rev : String) (x : Nat)
    (hx : ¬(x = n ∧ rev = name)) :
    ∀ (olds : List Nat) (es : List Edge),
      cnt (⟨x, rev, n⟩ : Edge) (remEdges n name rev es olds)
        = cnt (⟨x, rev, n⟩ : Edge) es - cnt x olds := by
  intro olds
  induction olds with
  | nil => intro es; simp [remEdges, cnt]
  | cons m ms ih =>
    intro es
    unfold remEdges
    rw [ih]
    have h1 : (⟨n, name, m⟩ : Edge) ≠ (⟨x, rev, n⟩ : Edge) := by
      intro hh
      rw [Edge.mk.injEq] at hh
      exact hx ⟨hh.1.symm, hh.2.1.symm⟩
    by_cases hmx : m = x
    · subst hmx
      rw [cnt_eraseOne, if_pos rfl, cnt_eraseOne, if_neg h1]
      simp [cnt]
      omega
    · have h2 : (⟨m, rev, n⟩ : Edge) ≠ (⟨x, rev, n⟩ : Edge) := by
        intro hh
        rw [Edge.mk.injEq] at hh
        exact hmx hh.1
      rw [cnt_eraseOne, if_neg h2, cnt_eraseOne, if_neg h1]
      simp [cnt, hmx]

/-- When the removal loop enumerates at least every forward occurrence,
all forward half edges of the attribute are erased. -/
theorem remEdges_clear (n : Nat) (name rev : String) :
    ∀ (olds : List Nat) (es : List Edge),
      (∀ t, cnt (⟨n, name, t⟩ : Edge) es ≤ cnt t olds) →
      ∀ t, cnt (⟨n, name, t⟩ : Edge) (remEdges n name rev es olds) = 0 := by
  intro olds
  induction olds with
  | nil =>
    intro es h t
    have ht := h t
    simp [cnt] at ht
    simpa [remEdges] using ht
  | cons m ms ih =>
    intro es h t
    unfold remEdges
    apply ih
    intro u
    have hu := h u
    have e2 : cnt (⟨n, name, u⟩ : Edge)
        (eraseOne (⟨m, rev, n⟩ : Edge) (eraseOne (⟨n, name, m⟩ : Edge) es))
        ≤ cnt (⟨n, name, u⟩ : Edge) (eraseOne (⟨n, name, m⟩ : Edge) es) :=
      cnt_eraseOne_le _ _ _
    by_cases hmu : m = u
    · subst hmu
      have e1 : cnt (⟨n, name, m⟩ : Edge) (eraseOne (⟨n, name, m⟩ : Edge) es)
          = cnt (⟨n, name, m⟩ : Edge) es - 1 := by
        rw [cnt_eraseOne, if_pos rfl]
      simp [cnt] at hu
      omega
    · have e1 : cnt (⟨n, name, u⟩ : Edge) (eraseOne (⟨n, name, m⟩ : Edge) es)
          ≤ cnt (⟨n, name, u⟩ : Edge) es := cnt_eraseOne_le _ _ _
      simp [cnt, hmu] at hu
      omega

/-- Forward count of the freshly added half edges. -/
theorem newEdges_cnt_fwd (n : Nat) (name rev : String) (x : Nat)
    (hx : ¬(x = n ∧ rev = name)) :
    ∀ xs : List Nat, cnt (⟨n, name, x⟩ : Edge) (newEdges n name rev xs) = cnt x xs := by
  intro xs
  induction xs with
  | nil => rfl
  | cons m ms ih =>
    have h2 : (⟨m, rev, n⟩ : Edge) ≠ (⟨n, name, x⟩ : Edge) := by
      intro hh
      rw [Edge.mk.injEq] at hh
      exact hx ⟨hh.2.2.symm, hh.2.1⟩
    by_cases hmx : m = x
    · subst hmx
      simp [newEdges, cnt, h2, ih]
    · have h1 : (⟨n, name, m⟩ : Edge) ≠ (⟨n, name, x⟩ : Edge) := by
        intro hh
        rw [Edge.mk.injEq] at hh
        exact hmx hh.2.2
      simp [newEdges, cnt, h1, h2, ih, hmx]

/-- Mirror count of the freshly added half edges. -/
theorem newEdges_cnt_mir (n : Nat) (name rev : String) (x : Nat)
    (hx : ¬(x = n ∧ rev = name)) :
    ∀ xs : List Nat, cnt (⟨x, rev, n⟩ : Edge) (newEdges n name rev xs) = cnt x xs := by
  intro xs
  induction xs with
  | nil => rfl
  | cons m ms ih =>
    have h1 : (⟨n, name, m⟩ : Edge) ≠ (⟨x, rev, n⟩ : Edge) := by
      intro hh
      rw [Edge.mk.injEq] at hh
      exact hx ⟨hh.1.symm, hh.2.1.symm⟩
    by_cases hmx : m = x
    · subst hmx
      simp [newEdges, cnt, h1, ih]
    · have h2 : (⟨m, rev, n⟩ : Edge) ≠ (⟨x, rev, n⟩ : Edge) := by
        intro hh
        rw [Edge.mk.injEq] at hh
        exact hmx hh.1
      simp [newEdges, cnt, h1, h2, ih, hmx]

/-- Half edges of neither written form are never added. -/
theorem newEdges_cnt_other (n : Nat) (name rev : String) (e : Edge)
    (hfwd : ¬(e.src = n ∧ e.nm = name)) (hmir : ¬(e.nm = rev ∧ e.tgt = n)) :
    ∀ xs : List Nat, cnt e (newEdges n name rev xs) = 0 := by
  intro xs
  induction xs with
  | nil => rfl
  | cons m ms ih =>
    have h1 : (⟨n, name, m⟩ : Edge) ≠ e := by
      intro hh
      exact hfwd (by rw [← hh]; exact ⟨rfl, rfl⟩)
    have h2 : (⟨m, rev, n⟩ : Edge) ≠ e := by
      intro hh
      exact hmir (by rw [← hh]; exact ⟨rfl, rfl⟩)
    simp [newEdges, cnt, h1, h2, ih]

/-- Targets distribute over edge list concatenation. -/
theorem targets_append (n : Nat) (name : String) (es1 es2 : List Edge) :
    targets (es1 ++ es2) n name = targets es1 n name ++ targets es2 n name := by
  simp [targets, List.filterMap_append]

/-- Count of any half edge after one replace style write. -/
theorem SLedges_cnt (n : Nat) (name rev : String) (es : List Edge) (xs : List Nat) (e : Edge) :
    cnt e (SLedges n name rev es xs)
      = (if e.src = n ∧ e.nm = name then 0
         else if e.nm = rev ∧ e.tgt = n then cnt e es - cnt e.src (targets es n name)
         else cnt e es) + cnt e (newEdges n name rev xs) := by
  unfold SLedges
  rw [cnt_append]
  congr 1
  by_cases hf : e.src = n ∧ e.nm = name
  · rw [if_pos hf]
    obtain ⟨s, w, tg⟩ := e
    have h1 : n = s := hf.1.symm
    have h2 : name = w := hf.2.symm
    subst h1
    subst h2
    exact remEdges_clear n name rev (targets es n name) es
      (fun t => le_of_eq (cnt_targets n name t es)) tg
  · rw [if_neg hf]
    by_cases hm : e.nm = rev ∧ e.tgt = n
    · rw [if_pos hm]
      obtain ⟨s, w, tg⟩ := e
      have h1 : rev = w := hm.1.symm
      have h2 : n = tg := hm.2.symm
      subst h1
      subst h2
      exact remEdges_mirror n name rev s (fun hh => hf ⟨hh.1, hh.2⟩) (targets es n name) es
    · rw [if_neg hm]
      exact remEdges_other n name rev e hf hm (targets es n name) es

/-- After a replace style write the attribute targets are exactly the new ones. -/
theorem SLedges_targets (n : Nat) (name rev : String) (es : List Edge) (xs : List Nat) :
    targets (SLedges n name rev es xs) n name = targets (newEdges n name rev xs) n name := by
  unfold SLedges
  rw [targets_append,
    targets_nil_of_cnt n name _
      (remEdges_clear n name rev (targets es n name) es
        (fun t => le_of_eq (cnt_targets n name t es))),
    List.nil_append]

/-- Repeating the same replace style write leaves every half edge count unchanged. -/
theorem SLedges_idem (n : Nat) (name rev : String) (es : List Edge) (xs : List Nat) (e : Edge) :
    cnt e (SLedges n name rev (SLedges n name rev es xs) xs)
      = cnt e (SLedges n name rev es xs) := by
  by_cases hf : e.src = n ∧ e.nm = name
  · rw [SLedges_cnt, if_pos hf, SLedges_cnt, if_pos hf]
  · by_cases hm : e.nm = rev ∧ e.tgt = n
    · obtain ⟨s, w, tg⟩ := e
      have h1 : rev = w := hm.1.symm
      have h2 : n = tg := hm.2.symm
      subst h1
      subst h2
      have hx : ¬(s = n ∧ rev = name) := fun hh => hf ⟨hh.1, hh.2⟩
      have hB : cnt s (targets (SLedges n name rev es xs) n name) = cnt s xs := by
        rw [SLedges_targets, ← cnt_targets, newEdges_cnt_fwd n name rev s hx]
      have hA : cnt (⟨s, rev, n⟩ : Edge) (SLedges n name rev es xs)
          = (cnt (⟨s, rev, n⟩ : Edge) es - cnt s (targets es n name)) + cnt s xs := by
        rw [SLedges_cnt, if_neg hf, if_pos ⟨rfl, rfl⟩, newEdges_cnt_mir n name rev s hx]
      have hC : cnt (⟨s, rev, n⟩ : Edge) (SLedges n name rev (SLedges n name rev es xs) xs)
          = (cnt (⟨s, rev, n⟩ : Edge) (SLedges n name rev es xs)
              - cnt s (targets (SLedges n name rev es xs) n name)) + cnt s xs := by
        rw [SLedges_cnt, if_neg hf, if_pos ⟨rfl, rfl⟩, newEdges_cnt_mir n name rev s hx]
      rw [hC, hB, hA]
      omega
    · rw [SLedges_cnt, if_neg hf, if_neg hm, newEdges_cnt_other n name rev e hf hm]
      omega

/-- The removal fold of setLink only rewrites the edge index. -/
theorem foldRemove_edges (n : Nat) (name rev : String) :
    ∀ (olds : List Nat) (g : Graph),
      (olds.foldl (fun h m => gRemoveLink h n name m rev) g).edges
        = remEdges n name rev g.edges olds
      ∧ (olds.foldl (fun h m => gRemoveLink h n name m rev) g).literals = g.literals := by
  intro olds
  induction olds with
  | nil => intro g; exact ⟨rfl, rfl⟩
  | cons m ms ih =>
    intro g
    rw [List.foldl_cons]
    obtain ⟨h1, h2⟩ := ih (gRemoveLink g n name m rev)
    exact ⟨h1, h2⟩

/-- The addition fold of setLink appends the new half edges in order. -/
theorem foldAdd_edges (n : Nat) (name rev : String) :
    ∀ (ts : List Nat) (g : Graph),
      (ts.foldl (fun h m => gAddLink h n name m rev) g).edges
        = g.edges ++ newEdges n name rev ts := by
  intro ts
  induction ts with
  | nil => intro g; simp [newEdges]
  | cons m ms ih =>
    intro g
    rw [List.foldl_cons, ih]
    simp [gAddLink, newEdges]

/-- An absent literal slot stays absent through the addition fold. -/
theorem foldAdd_preserve_none (n : Nat) (name rev : String) :
    ∀ (ts : List Nat) (g : Graph), lookupA g.literals (n, name) = none →
      lookupA (ts.foldl (fun h m => gAddLink h n name m rev) g).literals (n, name) = none := by
  intro ts
  induction ts with
  | nil => intro g h; exact h
  | cons m ms ih =>
    intro g h
    rw [List.foldl_cons]
    apply ih
    exact lookupA_eraseA_none _ _ _ (lookupA_eraseA_self g.literals (n, name))

/-- A non empty addition fold clears the literal slot of the written name. -/
theorem foldAdd_lit_none (n : Nat) (name rev : String) (m : Nat) (ms : List Nat) (g : Graph) :
    lookupA ((m :: ms).foldl (fun h m => gAddLink h n name m rev) g).literals (n, name)
      = none := by
  rw [List.foldl_cons]
  apply foldAdd_preserve_none
  exact lookupA_eraseA_none _ _ _ (lookupA_eraseA_self g.literals (n, name))

/-- Under the exclusivity invariant the materialized removal list of
setLink is exactly the target enumeration of the attribute. -/
theorem oldsOf_eq_targets (g : Graph) (n : Nat) (name : String)
    (hex : litLookup g n name = none ∨ targets g.edges n name = []) :
    oldsOf g n name = targets g.edges n name := by
  rcases hex with h | h
  · cases ht : targets g.edges n name with
    | nil =>
      unfold oldsOf
      rw [(get_spec g n name).2.2 h ht]
    | cons t ts =>
      unfold oldsOf
      rw [(get_spec g n name).2.1 h (by rw [ht]; simp), ht]
  · cases hl : litLookup g n name with
    | some l =>
      unfold oldsOf
      rw [(get_spec g n name).1 l hl, h]
    | none =>
      unfold oldsOf
      rw [(get_spec g n name).2.2 hl h, h]

/-- Edge level decomposition of setLink under the exclusivity invariant. -/
theorem setLink_edges (g : Graph) (n : Nat) (name : String) (v : PyVal) (rev : String)
    (hex : litLookup g n name = none ∨ targets g.edges n name = []) :
    (setLink g n name v rev).edges = SLedges n name rev g.edges (linkTargets v) := by
  unfold setLink addLink SLedges
  rw [foldAdd_edges, (foldRemove_edges n name rev (oldsOf g n name) g).1,
    oldsOf_eq_targets g n name hex]

/-- The exclusivity invariant of the written attribute survives setLink. -/
theorem setLink_hex (g : Graph) (n : Nat) (name : String) (v : PyVal) (rev : String)
    (hex : litLookup g n name = none ∨ targets g.edges n name = []) :
    litLookup (setLink g n name v rev) n name = none
      ∨ targets (setLink g n name v rev).edges n name = [] := by
  cases hts : linkTargets v with
  | cons m ms =>
    left
    show lookupA (setLink g n name v rev).literals (n, name) = none
    unfold setLink addLink
    rw [hts]
    exact foldAdd_lit_none n name rev m ms _
  | nil =>
    right
    rw [setLink_edges g n name v rev hex, hts, SLedges_targets]
    rfl

/-- C3: a link replacing write is idempotent on the edge index: writing
the same value twice under the same name and mirror name leaves the count
of every half edge, in particular every mirror attribute count on the
written targets, and the materialized edge set of the attribute exactly
as after a single write; the hypothesis is the documented invariant that
a literal and a link entry never coexist under one attribute name. -/
theorem setLink_idempotent (g : Graph) (n : Nat) (name : String) (v : PyVal) (rev : String)
    (hex : litLookup g n name = none ∨ targets g.edges n name = []) :
    (∀ e, cnt e (setLink (setLink g n name v rev) n name v rev).edges
        = cnt e (setLink g n name v rev).edges)
    ∧ targets (setLink (setLink g n name v rev) n name v rev).edges n name
        = targets (setLink g n name v rev).edges n name := by
  have h1 : (setLink g n name v rev).edges = SLedges n name rev g.edges (linkTargets v) :=
    setLink_edges g n name v rev hex
  have h2 : (setLink (setLink g n name v rev) n name v rev).edges
      = SLedges n name rev (setLink g n name v rev).edges (linkTargets v) :=
    setLink_edges _ n name v rev (setLink_hex g n name v rev hex)
  constructor
  · intro e
    rw [h2, h1, SLedges_idem]
  · rw [h2, h1, SLedges_targets, SLedges_targets]

/-- Witness for setLink_idempotent: a double write of two targets on the
empty graph, checked on the mirror half edge of target 2 and on the
materialized edge set. -/
theorem setLink_idempotent_witness :
    (litLookup emptyG 1 "f" = none ∨ targets emptyG.edges 1 "f" = [])
    ∧ cnt (⟨2, "isFOf", 1⟩ : Edge)
        (setLink (setLink emptyG 1 "f" (.nodes [2, 3]) "isFOf") 1 "f"
          (.nodes [2, 3]) "isFOf").edges
      = cnt (⟨2, "isFOf", 1⟩ : Edge) (setLink emptyG 1 "f" (.nodes [2, 3]) "isFOf").edges
    ∧ targets (setLink (setLink emptyG 1 "f" (.nodes [2, 3]) "isFOf") 1 "f"
          (.nodes [2, 3]) "isFOf").edges 1 "f"
      = targets (setLink emptyG 1 "f" (.nodes [2, 3]) "isFOf").edges 1 "f" :=
  ⟨Or.inl rfl,
   (setLink_idempotent emptyG 1 "f" (.nodes [2, 3]) "isFOf" (Or.inl rfl)).1 ⟨2, "isFOf", 1⟩,
   (setLink_idempotent emptyG 1 "f" (.nodes [2, 3]) "isFOf" (Or.inl rfl)).2⟩

end Pygoo
